import Mathlib

/-!
Verification development for the OcrDiffAlign repository.

The repository aligns OCR output lines against a clean Hebrew reference text.
The core engine lives in src/align.py (functions normalize_hebrew,
build_windows, diff_strings, align_ocr_lines); src/align-pagexml.py repeats
the same engine and adds PAGE-XML extraction/update
(extract_ocr_lines_from_pagexml, update_pagexml_with_aligned_text).

This file shallowly embeds those functions over Lean strings and lists:
Python strings become List Char / String, Python ints become Nat / Int, the
floating-point similarity score (always an exact small rational in this
pipeline) becomes ℚ built through an explicitly reduced constructor so that
concrete runs evaluate inside the kernel, and the crash that Python raises
when rapidfuzz process.extractOne returns None is modelled by Option with
none for an aborted run.

External library calls are embedded as follows.

difflib.ndiff (Python standard library, called by diff_strings with the two
strings as character sequences) is embedded faithfully for that call shape:
SequenceMatcher with isjunk = None on the character sequences (including the
autojunk popularity filter that activates at length at least 200), the
Differ replace handling specialised to length-one lines, where the
close-pair search of Differ can never fire, because the intraline ratio of
two distinct single characters is 0, below the 0.74 cutoff, so an identical
pair is synched on when present and otherwise a plain replace is emitted,
which means no intraline hint lines are ever produced for character input.

rapidfuzz process.extractOne and fuzz.ratio are third-party code that is not
part of this repository; they are modelled from the specification (section
4.3): the scorer is the classic sequence-matcher similarity, twice the total
matched-block length over the combined length, scaled to the 0..100 range,
and selection keeps the candidate with the strictly greatest score, with
ties resolved in favour of the earliest candidate.
-/

namespace OcrDiffAlign

/-- Whitespace test matching Python: both the regex class backslash-s in
Unicode mode and str.strip use the same character predicate
(Py_UNICODE_ISSPACE); this is its character list. -/
def isPySpace (c : Char) : Bool :=
  let n := c.toNat
  decide ((9 ≤ n ∧ n ≤ 13) ∨ (28 ≤ n ∧ n ≤ 31) ∨ n = 32 ∨ n = 0x85 ∨
    n = 0xA0 ∨ n = 0x1680 ∨ (0x2000 ≤ n ∧ n ≤ 0x200A) ∨ n = 0x2028 ∨
    n = 0x2029 ∨ n = 0x202F ∨ n = 0x205F ∨ n = 0x3000)

/-- Characters of the Hebrew Unicode block, the range 0590 to 05FF kept by
the regex character class in normalize_hebrew. -/
def isHebrewChar (c : Char) : Bool :=
  decide (0x590 ≤ c.toNat ∧ c.toNat ≤ 0x5FF)

/-- Characters kept by the regex substitution in normalize_hebrew:
Hebrew letters plus whitespace. -/
def keepChar (c : Char) : Bool :=
  isHebrewChar c || isPySpace c

/-- Python str.strip on a character list: drop whitespace from both ends. -/
def pyStripL (l : List Char) : List Char :=
  ((l.dropWhile isPySpace).reverse.dropWhile isPySpace).reverse

/-- Python str.strip on strings. -/
def pyStrip (s : String) : String :=
  String.mk (pyStripL s.data)

/-- Embedding of normalize_hebrew (src/align.py lines 11-13): delete every
character outside the Hebrew block and whitespace, then strip. -/
def normalize_hebrew (s : String) : String :=
  pyStrip (String.mk (s.data.filter keepChar))

/-- Python str.split with no separator: split on whitespace runs and drop
empty pieces. -/
def pySplit (s : String) : List String :=
  ((s.data.splitOnP isPySpace).filter (fun w => ¬ w.isEmpty)).map String.mk

/-- Embedding of build_windows (src/align.py lines 16-18): all spans of
windowSize consecutive words of the text, joined by single spaces.  The
Python range len(words)-window_size+1 is empty when it is non-positive,
which the truncated Nat subtraction reproduces. -/
def build_windows (referenceText : String) (windowSize : Nat) : List String :=
  let words := pySplit referenceText
  (List.range (words.length + 1 - windowSize)).map
    (fun i => String.intercalate " " ((words.drop i).take windowSize))

/-- Window sizes tried for a line of baseSize tokens (src/align.py line 60):
baseSize-1, baseSize, baseSize+1, filtered to positive values.  The Python
arithmetic is over ℤ, so baseSize-1 for baseSize = 0 is -1 and is dropped. -/
def windowSizes (baseSize : Nat) : List Nat :=
  (([(baseSize : Int) - 1, (baseSize : Int), (baseSize : Int) + 1]).filter
    (fun s => decide (0 < s))).map Int.toNat

/-- Embedding of dict.fromkeys deduplication (src/align.py line 64): scan
left to right, append an element the first time it is seen. -/
def pyDedup (l : List String) : List String :=
  l.foldl (fun acc a => if a ∈ acc then acc else acc ++ [a]) []

/-- Candidate set for one line (src/align.py lines 58-64): windows of every
selected size, concatenated in increasing size order, deduplicated keeping
first occurrences. -/
def candidatesFor (refNorm normLine : String) : List String :=
  pyDedup ((windowSizes (pySplit normLine).length).flatMap
    (fun w => build_windows refNorm w))

/-- Fuel-driven Euclid gcd; structural recursion so that the kernel can
evaluate concrete scores. -/
def gcdF : Nat → Nat → Nat → Nat
  | 0, m, _ => m
  | fuel + 1, m, n => if m = 0 then n else gcdF fuel (n % m) m

/-- Kernel-reducible gcd. -/
def natGcd (m n : Nat) : Nat := gcdF (m + 1) m n

theorem gcdF_eq (fuel m n : Nat) (h : m < fuel) : gcdF fuel m n = Nat.gcd m n := by
  induction fuel generalizing m n with
  | zero => omega
  | succ fuel ih =>
    simp only [gcdF]
    by_cases hm : m = 0
    · simp [hm]
    · rw [if_neg hm, ih _ _ (by have := Nat.mod_lt n (Nat.pos_of_ne_zero hm); omega)]
      exact (Nat.gcd_rec m n).symm

theorem natGcd_eq (m n : Nat) : natGcd m n = Nat.gcd m n :=
  gcdF_eq _ _ _ (Nat.lt_succ_self m)

/-- Exact non-negative rational num/den in lowest terms, built so concrete
values reduce in the kernel. -/
def mkQ (num den : Nat) : ℚ :=
  if h : den = 0 then 0
  else
    Rat.mk' (num / natGcd num den) (den / natGcd num den)
      (by
        rw [natGcd_eq]
        have hg : 0 < Nat.gcd num den := Nat.gcd_pos_of_pos_right _ (Nat.pos_of_ne_zero h)
        have : 0 < den / Nat.gcd num den :=
          Nat.div_pos (Nat.le_of_dvd (Nat.pos_of_ne_zero h) (Nat.gcd_dvd_right _ _)) hg
        omega)
      (by
        rw [natGcd_eq]
        have hg : 0 < Nat.gcd num den := Nat.gcd_pos_of_pos_right _ (Nat.pos_of_ne_zero h)
        simpa using Nat.coprime_div_gcd_div_gcd hg)

/-- One line of the edit script produced by difflib.ndiff at character
level: keep is an unchanged character, del a character only in the first
string, ins a character only in the second.  Hint lines never occur for
character input (see the header comment), so they need no constructor. -/
inductive DiffLine where
  | keep (c : Char)
  | del (c : Char)
  | ins (c : Char)
deriving DecidableEq, Repr

/-- Index lists of SequenceMatcher.b2j for isjunk = None: positions of each
character of b in ascending order, with the autojunk rule that drops
popular characters when b has at least 200 elements. -/
def b2j (bs : List Char) (c : Char) : List Nat :=
  if 200 ≤ bs.length ∧ bs.length / 100 + 1 < bs.count c then []
  else (List.range bs.length).filter (fun j => bs.getD j ' ' = c)

/-- Lookup in the j2len association list of find_longest_match, defaulting
to zero exactly like dict.get(j-1, 0). -/
def lookup0 (m : List (Nat × Nat)) (k : Nat) : Nat :=
  match m.find? (fun p => p.1 = k) with
  | some p => p.2
  | none => 0

/-- Inner loop of find_longest_match over the match positions js of a single
a-character at index i: extends diagonal runs recorded in the previous
j2len table and keeps the strictly longest run seen so far. -/
def flmInner (i : Nat) (js : List Nat) (old : List (Nat × Nat))
    (best : Nat × Nat × Nat) : List (Nat × Nat) × (Nat × Nat × Nat) :=
  js.foldl
    (fun acc j =>
      let k := (if j = 0 then 0 else lookup0 old (j - 1)) + 1
      (((j, k) :: acc.1),
        if acc.2.2.2 < k then (i + 1 - k, j + 1 - k, k) else acc.2))
    ([], best)

/-- Core dynamic scan of SequenceMatcher.find_longest_match over
a[alo:ahi] and b[blo:bhi], before the extension loops. -/
def flmCore (as_ : List Char) (b2jf : Char → List Nat)
    (alo ahi blo bhi : Nat) : Nat × Nat × Nat :=
  ((List.range' alo (ahi - alo)).foldl
    (fun st i =>
      let js := (b2jf (as_.getD i ' ')).filter (fun j => decide (blo ≤ j) && decide (j < bhi))
      flmInner i js st.1 st.2)
    ([], (alo, blo, 0))).2

/-- Leftward extension loop of find_longest_match (the junk set is empty for
isjunk = None, so only the plain equal-character loop can fire). -/
def extLeftGo (as_ bs : List Char) (alo blo : Nat) : Nat → Nat → Nat → Nat
  | _, _, 0 => 0
  | i, j, fuel + 1 =>
    if alo < i ∧ blo < j ∧ as_.getD (i - 1) ' ' = bs.getD (j - 1) ' ' then
      extLeftGo as_ bs alo blo (i - 1) (j - 1) fuel + 1
    else 0

/-- Rightward extension loop of find_longest_match. -/
def extRightGo (as_ bs : List Char) (ahi bhi : Nat) : Nat → Nat → Nat → Nat
  | _, _, 0 => 0
  | i, j, fuel + 1 =>
    if i < ahi ∧ j < bhi ∧ as_.getD i ' ' = bs.getD j ' ' then
      extRightGo as_ bs ahi bhi (i + 1) (j + 1) fuel + 1
    else 0

/-- Embedding of SequenceMatcher.find_longest_match with isjunk = None:
the diagonal scan followed by both extension loops. -/
def findLongestMatch (as_ bs : List Char) (b2jf : Char → List Nat)
    (alo ahi blo bhi : Nat) : Nat × Nat × Nat :=
  let c := flmCore as_ b2jf alo ahi blo bhi
  let e := extLeftGo as_ bs alo blo c.1 c.2.1 c.1
  let bi := c.1 - e
  let bj := c.2.1 - e
  let bk := c.2.2 + e
  let f := extRightGo as_ bs ahi bhi (bi + bk) (bj + bk) (ahi - (bi + bk))
  (bi, bj, bk + f)

/-- Recursive block collection of get_matching_blocks; the queue order of
the Python version does not matter because the collected blocks are sorted,
and this recursion emits them already sorted.  The fuel bounds the recursion
depth; the top-level call supplies more than the interval size, which the
strictly shrinking subintervals can never exhaust. -/
def matchingBlocksAux (as_ bs : List Char) (b2jf : Char → List Nat) :
    Nat → Nat → Nat → Nat → Nat → List (Nat × Nat × Nat)
  | 0, _, _, _, _ => []
  | fuel + 1, alo, ahi, blo, bhi =>
    let m := findLongestMatch as_ bs b2jf alo ahi blo bhi
    if m.2.2 = 0 then []
    else
      (if alo < m.1 ∧ blo < m.2.1 then
        matchingBlocksAux as_ bs b2jf fuel alo m.1 blo m.2.1
      else []) ++
      [m] ++
      (if m.1 + m.2.2 < ahi ∧ m.2.1 + m.2.2 < bhi then
        matchingBlocksAux as_ bs b2jf fuel (m.1 + m.2.2) ahi (m.2.1 + m.2.2) bhi
      else [])

/-- Adjacent-block merge of get_matching_blocks, threaded exactly like the
Python loop starting from the dummy block (0,0,0). -/
def mergeAdjacent : (Nat × Nat × Nat) → List (Nat × Nat × Nat) → List (Nat × Nat × Nat)
  | (i1, j1, k1), [] => if k1 ≠ 0 then [(i1, j1, k1)] else []
  | (i1, j1, k1), (i2, j2, k2) :: rest =>
    if i1 + k1 = i2 ∧ j1 + k1 = j2 then mergeAdjacent (i1, j1, k1 + k2) rest
    else (if k1 ≠ 0 then [(i1, j1, k1)] else []) ++ mergeAdjacent (i2, j2, k2) rest

/-- Embedding of SequenceMatcher.get_matching_blocks on two character
lists: sorted maximal blocks, adjacent ones merged, with the terminating
(la, lb, 0) sentinel. -/
def matchingBlocks (as_ bs : List Char) : List (Nat × Nat × Nat) :=
  mergeAdjacent (0, 0, 0)
    (matchingBlocksAux as_ bs (b2j bs) (as_.length + bs.length + 1)
      0 as_.length 0 bs.length) ++ [(as_.length, bs.length, 0)]

/-- Opcode of SequenceMatcher.get_opcodes. -/
inductive Opcode where
  | equal (alo ahi blo bhi : Nat)
  | delete (alo ahi blo bhi : Nat)
  | insert (alo ahi blo bhi : Nat)
  | replace (alo ahi blo bhi : Nat)
deriving DecidableEq, Repr

/-- Loop of get_opcodes over the matching blocks. -/
def opcodesGo : Nat → Nat → List (Nat × Nat × Nat) → List Opcode
  | _, _, [] => []
  | i, j, (ai, bj, size) :: rest =>
    (if i < ai ∧ j < bj then [Opcode.replace i ai j bj]
     else if i < ai then [Opcode.delete i ai j bj]
     else if j < bj then [Opcode.insert i ai j bj]
     else []) ++
    (if size ≠ 0 then [Opcode.equal ai (ai + size) bj (bj + size)] else []) ++
    opcodesGo (ai + size) (bj + size) rest

/-- Embedding of SequenceMatcher.get_opcodes. -/
def getOpcodes (as_ bs : List Char) : List Opcode :=
  opcodesGo 0 0 (matchingBlocks as_ bs)

/-- Python slice l[lo:hi] on lists. -/
def sliceD (l : List Char) (lo hi : Nat) : List Char :=
  (l.drop lo).take (hi - lo)

/-- First identical pair inside a replace block, scanned like the
eqi/eqj search of Differ, j outer and i inner. -/
def findEq (as_ bs : List Char) : Option (Nat × Nat) :=
  (List.range bs.length).findSome? (fun j =>
    ((List.range as_.length).find? (fun i => as_.getD i ' ' = bs.getD j ' ')).map
      (fun i => (i, j)))

/-- Straight replace dump of Differ, shorter block first. -/
def plainReplace (as_ bs : List Char) : List DiffLine :=
  if bs.length < as_.length then bs.map DiffLine.ins ++ as_.map DiffLine.del
  else as_.map DiffLine.del ++ bs.map DiffLine.ins

/-- Embedding of Differ replace handling for length-one lines (character
input): the close-pair search can never succeed (two distinct single
characters have intraline ratio 0, below the 0.74 cutoff), so the scan
synchs on the first identical pair when one exists and otherwise falls
back to the plain replace; around a synch point the two remainders are
processed by the helper dispatch of Differ.  The fuel only bounds the
recursion depth and never runs out for the supplied value because both
remainders are strictly shorter. -/
def fancyReplace : Nat → List Char → List Char → List DiffLine
  | 0, _, _ => []
  | fuel + 1, as_, bs =>
    let helper := fun (xs ys : List Char) =>
      if xs.isEmpty then ys.map DiffLine.ins
      else if ys.isEmpty then xs.map DiffLine.del
      else fancyReplace fuel xs ys
    match findEq as_ bs with
    | none => plainReplace as_ bs
    | some (i, j) =>
      helper (as_.take i) (bs.take j) ++ [DiffLine.keep (as_.getD i ' ')] ++
        helper (as_.drop (i + 1)) (bs.drop (j + 1))

/-- Embedding of difflib.ndiff on character sequences: Differ.compare
dispatch over the opcodes. -/
def ndiffChars (as_ bs : List Char) : List DiffLine :=
  (getOpcodes as_ bs).flatMap (fun op =>
    match op with
    | Opcode.equal alo ahi _ _ => (sliceD as_ alo ahi).map DiffLine.keep
    | Opcode.delete alo ahi _ _ => (sliceD as_ alo ahi).map DiffLine.del
    | Opcode.insert _ _ blo bhi => (sliceD bs blo bhi).map DiffLine.ins
    | Opcode.replace alo ahi blo bhi =>
      fancyReplace ((ahi - alo) + (bhi - blo) + 1) (sliceD as_ alo ahi) (sliceD bs blo bhi))

/-- Confusion pair: left component the OCR character (none for a pure
insertion), right component the reference character (none for a pure
deletion).  The Python code uses the empty string for the absent side;
Option Char is the typed rendering. -/
abbrev ConfusionPair := Option Char × Option Char

/-- Scanning loop of diff_strings (src/align.py lines 23-36) over the edit
script: a delete immediately followed by an insert becomes one substitution
pair, a delete without a following insert a deletion pair, an insert an
insertion pair, and kept characters emit nothing. -/
def mergeDiff : List DiffLine → List ConfusionPair
  | [] => []
  | DiffLine.del a :: DiffLine.ins b :: rest => (some a, some b) :: mergeDiff rest
  | DiffLine.del a :: rest => (some a, none) :: mergeDiff rest
  | DiffLine.ins b :: rest => (none, some b) :: mergeDiff rest
  | DiffLine.keep _ :: rest => mergeDiff rest

/-- Embedding of diff_strings (src/align.py lines 21-36): the ndiff edit
script of the two strings folded into confusion pairs.  The Python function
appends into a caller-supplied log; the embedding returns the appended
pairs. -/
def diff_strings (ocr ref : String) : List ConfusionPair :=
  mergeDiff (ndiffChars ocr.data ref.data)

/-- Total matched length over a block list (the sentinel contributes 0). -/
def blockTotal (bl : List (Nat × Nat × Nat)) : Nat :=
  (bl.map (fun t => t.2.2)).sum

/-- Modelled from the spec: the similarity scorer fuzz.ratio of the external
rapidfuzz library (not part of this repository), described in section 4.3 as
the classic sequence-matcher ratio, twice the total length of matching
blocks over the combined length of the two strings, scaled to 0..100 (both
strings empty giving the maximal score). -/
def fuzzScore (a b : String) : ℚ :=
  let m := blockTotal (matchingBlocks a.data b.data)
  let t := a.data.length + b.data.length
  if t = 0 then 100 else mkQ (200 * m) t

/-- Accumulator loop for the best-candidate search: a strictly greater score
replaces the incumbent, so the earliest candidate wins ties. -/
def extractOneAux (scorer : String → String → ℚ) (query : String) :
    String × ℚ × Nat → Nat → List String → String × ℚ × Nat
  | best, _, [] => best
  | best, i, c :: cs =>
    let s := scorer query c
    if best.2.1 < s then extractOneAux scorer query (c, s, i) (i + 1) cs
    else extractOneAux scorer query best (i + 1) cs

/-- Modelled from the spec: process.extractOne of the external rapidfuzz
library (not part of this repository).  Returns the candidate with the
strictly greatest score together with its score and its index in the
candidate sequence, the earliest candidate on ties, and none when the
candidate sequence is empty (the Python call then returns None and the
caller's tuple unpacking raises). -/
def extractOne (scorer : String → String → ℚ) (query : String) :
    List String → Option (String × ℚ × Nat)
  | [] => none
  | c :: cs => some (extractOneAux scorer query (c, scorer query c, 0) 1 cs)

/-- Python str.find on character lists: index of the first occurrence of
needle, -1 when absent. -/
def findSub (needle : List Char) : List Char → Int
  | [] => if needle = [] then 0 else -1
  | c :: t =>
    if needle.isPrefixOf (c :: t) then 0
    else if findSub needle t < 0 then -1 else findSub needle t + 1

/-- Python str.find on strings (src/align.py line 67 uses it for the
Start Index column). -/
def strFind (hay needle : String) : Int :=
  findSub needle.data hay.data

/-- Per-line record written by align_ocr_lines: the tuple
(line, match, score, start_index, final_match) of src/align.py line 73. -/
structure LineResult where
  raw : String
  bestMatch : String
  score : ℚ
  startIndex : Int
  finalMatch : String
deriving DecidableEq, Repr

/-- Body of the per-line loop of align_ocr_lines (src/align.py lines 54-74):
normalize the line, build the candidate set, select the best candidate,
locate it in the normalized reference and diff the raw line against it.
Returns none when extractOne returns none (empty candidate set), where the
Python unpacking of None raises and aborts the run. -/
def processLine (refNorm line : String) : Option (LineResult × List ConfusionPair) :=
  let normLine := normalize_hebrew line
  let candidates := candidatesFor refNorm normLine
  match extractOne fuzzScore normLine candidates with
  | none => none
  | some (m, s, _) =>
    some (⟨line, m, s, strFind refNorm m, m⟩, diff_strings line m)

/-- Embedding of align_ocr_lines (src/align.py lines 39-107) restricted to
its computational content: the ordered LineResult sequence and the confusion
log (file writing, the uuid output names and the printed summary are I/O).
A line whose candidate set is empty aborts the whole run (none), matching
the uncaught TypeError of the Python code. -/
def align_ocr_lines (ocrLines : List String) (referenceText : String) :
    Option (List LineResult × List ConfusionPair) :=
  let refNorm := normalize_hebrew referenceText
  ocrLines.foldl
    (fun acc line =>
      acc.bind (fun st =>
        (processLine refNorm line).map (fun rp => (st.1 ++ [rp.1], st.2 ++ rp.2))))
    (some ([], []))

/-- Abstraction of one PAGE-XML TextLine element as the two alignment
functions of src/align-pagexml.py observe it: whether a TextEquiv child is
present, the Unicode element nested inside the TextEquiv (outer none when
the element is missing, inner none when its text is missing), and a Unicode
element sitting directly under the TextLine. -/
structure PageTextLine where
  hasTextEquiv : Bool
  textEquivUnicode : Option (Option String)
  directUnicode : Option (Option String)
deriving DecidableEq, Repr

/-- Embedding of extract_ocr_lines_from_pagexml (src/align-pagexml.py lines
95-132) on the TextLine abstraction: prefer the Unicode inside a TextEquiv,
fall back to a direct Unicode child, and collect the stripped text of lines
whose text is present and non-empty. -/
def extract_ocr_lines (doc : List PageTextLine) : List String :=
  doc.flatMap (fun tl =>
    let u := if tl.hasTextEquiv then tl.textEquivUnicode else tl.directUnicode
    match u with
    | some (some t) => if t = "" then [] else [pyStrip t]
    | _ => [])

/-- Walk of update_pagexml_with_aligned_text (src/align-pagexml.py lines
134-168) over the TextLine elements: only a Unicode element that is a
direct child of the TextLine is consulted; when one exists and results
remain, the result at the running index is consumed and the text replaced
exactly when it differs from the recorded raw text and the score exceeds
50. -/
def updateGo (results : List LineResult) : List PageTextLine → Nat → List PageTextLine
  | [], _ => []
  | tl :: rest, idx =>
    match tl.directUnicode with
    | some _ =>
      if idx < results.length then
        let r := results.getD idx ⟨"", "", 0, 0, ""⟩
        let tl' :=
          if r.raw ≠ r.bestMatch ∧ 50 < r.score then
            { tl with directUnicode := some (some r.bestMatch) }
          else tl
        tl' :: updateGo results rest (idx + 1)
      else tl :: updateGo results rest idx
    | none => tl :: updateGo results rest idx

/-- Embedding of update_pagexml_with_aligned_text on the TextLine
abstraction (the timestamp update and XML serialisation are I/O). -/
def update_pagexml_with_aligned_text (doc : List PageTextLine)
    (results : List LineResult) : List PageTextLine :=
  updateGo results doc 0

/-- Specification-side stable deduplication: keep the head, delete its later
duplicates, recurse.  Keeping the first instance of each string and the
relative order of survivors is manifest in this recursion; the theorem for
claim C5 identifies it with the dict.fromkeys fold pyDedup used by the
embedded code. -/
def dedupFirst : List String → List String
  | [] => []
  | x :: xs => x :: dedupFirst (xs.filter (· ≠ x))
termination_by l => l.length
decreasing_by exact Nat.lt_succ_of_le (List.length_filter_le _ _)

theorem dedupFirst_sublist (l : List String) : List.Sublist (dedupFirst l) l := by
  induction l using dedupFirst.induct with
  | case1 => simp [dedupFirst]
  | case2 x xs ih =>
    rw [dedupFirst]
    exact (ih.trans (List.filter_sublist xs)).cons₂ x

theorem dedupFirst_mem (l : List String) (a : String) : a ∈ dedupFirst l ↔ a ∈ l := by
  induction l using dedupFirst.induct with
  | case1 => simp [dedupFirst]
  | case2 x xs ih =>
    rw [dedupFirst]
    simp only [List.mem_cons, ih, List.mem_filter]
    by_cases hax : a = x <;> simp [hax]

theorem dedupFirst_nodup (l : List String) : (dedupFirst l).Nodup := by
  induction l using dedupFirst.induct with
  | case1 => simp [dedupFirst]
  | case2 x xs ih =>
    rw [dedupFirst]
    refine List.nodup_cons.mpr ⟨fun hx => ?_, ih⟩
    have := (dedupFirst_mem _ _).mp hx
    simp [List.mem_filter] at this

theorem pyDedup_go (l : List String) : ∀ acc : List String,
    l.foldl (fun acc a => if a ∈ acc then acc else acc ++ [a]) acc =
      acc ++ dedupFirst (l.filter (fun a => a ∉ acc)) := by
  induction l with
  | nil => intro acc; simp [dedupFirst]
  | cons a xs ih =>
    intro acc
    rw [List.foldl_cons]
    by_cases h : a ∈ acc
    · rw [if_pos h, ih acc]
      have : (a :: xs).filter (fun a => a ∉ acc) = xs.filter (fun a => a ∉ acc) := by
        rw [List.filter_cons]
        simp [h]
      rw [this]
    · rw [if_neg h, ih (acc ++ [a])]
      have h1 : (a :: xs).filter (fun a => a ∉ acc) =
          a :: xs.filter (fun a => a ∉ acc) := by
        rw [List.filter_cons]
        simp [h]
      rw [h1, dedupFirst]
      have h2 : xs.filter (fun b => b ∉ acc ++ [a]) =
          (xs.filter (fun b => b ∉ acc)).filter (· ≠ a) := by
        rw [List.filter_filter]
        apply List.filter_congr
        intro b _
        by_cases hba : b = a <;> by_cases hbacc : b ∈ acc <;>
          simp [hba, hbacc, List.mem_append]
      rw [h2]
      simp

theorem pyDedup_eq_dedupFirst (l : List String) : pyDedup l = dedupFirst l := by
  have := pyDedup_go l []
  simpa [pyDedup] using this

/-- A run already aborted stays aborted through the per-line fold of
align_ocr_lines. -/
theorem align_foldl_none (refNorm : String) : ∀ ls : List String,
    ls.foldl
      (fun acc line =>
        acc.bind (fun st =>
          (processLine refNorm line).map (fun rp => (st.1 ++ [rp.1], st.2 ++ rp.2))))
      none = none := by
  intro ls
  induction ls with
  | nil => rfl
  | cons l ls ih => simpa using ih

/-- An empty candidate set makes the per-line body fail, modelling the None
returned by extractOne and the tuple-unpacking crash that follows. -/
theorem processLine_none (refNorm line : String)
    (h : candidatesFor refNorm (normalize_hebrew line) = []) :
    processLine refNorm line = none := by
  simp only [processLine, h]
  rfl

/-- Every line record emitted by a successful run stores as startIndex the
value of the find call on the normalized reference and the matched text. -/
theorem align_results_startIndex (lines : List String) (ref : String)
    (out : List LineResult × List ConfusionPair)
    (h : align_ocr_lines lines ref = some out) :
    ∀ r ∈ out.1, r.startIndex = strFind (normalize_hebrew ref) r.bestMatch := by
  have main : ∀ (ls : List String) (acc out : List LineResult × List ConfusionPair),
      ls.foldl
        (fun acc line =>
          acc.bind (fun st =>
            (processLine (normalize_hebrew ref) line).map
              (fun rp => (st.1 ++ [rp.1], st.2 ++ rp.2))))
        (some acc) = some out →
      (∀ r ∈ acc.1, r.startIndex = strFind (normalize_hebrew ref) r.bestMatch) →
      ∀ r ∈ out.1, r.startIndex = strFind (normalize_hebrew ref) r.bestMatch := by
    intro ls
    induction ls with
    | nil =>
      intro acc out h hacc
      simp only [List.foldl_nil, Option.some.injEq] at h
      exact h ▸ hacc
    | cons l ls ih =>
      intro acc out h hacc
      rw [List.foldl_cons] at h
      rcases hp : processLine (normalize_hebrew ref) l with _ | rp
      · rw [hp] at h
        simp only [Option.map_none', Option.bind_none, Option.bind_some] at h
        rw [align_foldl_none] at h
        exact absurd h (by simp)
      · rw [hp] at h
        simp only [Option.bind_some, Option.map_some'] at h
        refine ih _ _ h ?_
        intro r hr
        rcases List.mem_append.mp hr with hr | hr
        · exact hacc r hr
        · have hr' : r = rp.1 := by simpa using hr
          subst hr'
          revert hp
          simp only [processLine]
          rcases extractOne fuzzScore (normalize_hebrew l)
              (candidatesFor (normalize_hebrew ref) (normalize_hebrew l)) with _ | m
          · intro hp; cases hp
          · intro hp
            injection hp with hp
            rw [← hp]
  intro r hr
  exact main lines ([], []) out (by simpa [align_ocr_lines] using h) (by simp) r hr

/-- Correctness of the embedded str.find: a non-negative result is the
offset of an occurrence of the needle, and no earlier offset carries one. -/
theorem findSub_spec (needle : List Char) : ∀ hay : List Char,
    0 ≤ findSub needle hay →
    needle.isPrefixOf (hay.drop (findSub needle hay).toNat) = true ∧
    ∀ j, j < (findSub needle hay).toNat →
      needle.isPrefixOf (hay.drop j) = false := by
  intro hay
  induction hay with
  | nil =>
    intro h0
    by_cases hn : needle = []
    · subst hn
      constructor
      · simp [findSub, List.isPrefixOf]
      · intro j hj
        simp [findSub] at hj
    · rw [findSub, if_neg hn] at h0
      omega
  | cons c t ih =>
    intro h0
    by_cases hp : needle.isPrefixOf (c :: t) = true
    · rw [findSub, if_pos hp]
      exact ⟨by simpa using hp, by intro j hj; simp at hj⟩
    · rw [findSub, if_neg hp] at h0 ⊢
      by_cases hr : findSub needle t < 0
      · rw [if_pos hr] at h0
        omega
      · rw [if_neg hr] at h0 ⊢
        push_neg at hr
        obtain ⟨hpre, hmin⟩ := ih hr
        have htn : (findSub needle t + 1).toNat = (findSub needle t).toNat + 1 := by
          omega
        constructor
        · rw [htn]
          simpa using hpre
        · intro j hj
          rw [htn] at hj
          cases j with
          | zero =>
            simp only [List.drop_zero]
            simp only [Bool.not_eq_true] at hp
            exact hp
          | succ j' =>
            have hj' : j' < (findSub needle t).toNat := by omega
            simpa using hmin j' hj'

theorem pyStripL_eq_rdropWhile (l : List Char) :
    pyStripL l = List.rdropWhile isPySpace (l.dropWhile isPySpace) := rfl

theorem pyStripL_subset (l : List Char) : ∀ c ∈ pyStripL l, c ∈ l := by
  intro c hc
  rw [pyStripL_eq_rdropWhile] at hc
  exact (List.dropWhile_suffix isPySpace).sublist.subset
    ((List.rdropWhile_prefix isPySpace _).sublist.subset hc)

theorem dropWhile_eq_self_of_isPre (p : Char → Bool) (y x : List Char)
    (hpre : List.IsPrefix y x) (hx : x.dropWhile p = x) :
    y.dropWhile p = y := by
  rcases y with _ | ⟨c, t⟩
  · simp
  · obtain ⟨u, hu⟩ := hpre
    have hx' : x = c :: (t ++ u) := by rw [← hu]; simp
    subst hx'
    rw [List.dropWhile_cons] at hx ⊢
    by_cases hc : p c = true
    · rw [if_pos hc] at hx
      have := congrArg List.length hx
      have hle := (List.dropWhile_suffix p (l := t ++ u)).sublist.length_le
      simp only [List.length_cons] at this
      omega
    · rw [if_neg hc]

theorem pyStripL_idem (l : List Char) : pyStripL (pyStripL l) = pyStripL l := by
  have hd : (pyStripL l).dropWhile isPySpace = pyStripL l :=
    dropWhile_eq_self_of_isPre isPySpace (pyStripL l) (l.dropWhile isPySpace)
      (List.rdropWhile_prefix isPySpace (l.dropWhile isPySpace))
      (List.dropWhile_idempotent isPySpace l)
  calc pyStripL (pyStripL l)
      = List.rdropWhile isPySpace ((pyStripL l).dropWhile isPySpace) :=
        pyStripL_eq_rdropWhile _
    _ = List.rdropWhile isPySpace (pyStripL l) := by rw [hd]
    _ = List.rdropWhile isPySpace (List.rdropWhile isPySpace (l.dropWhile isPySpace)) := by
        rw [pyStripL_eq_rdropWhile l]
    _ = List.rdropWhile isPySpace (l.dropWhile isPySpace) :=
        List.rdropWhile_idempotent _ _
    _ = pyStripL l := (pyStripL_eq_rdropWhile l).symm

/-- Behaviour of the best-candidate accumulator: either no later candidate
strictly beats the incumbent and it is returned, or the first strict
improvement chain ends at position j, whose score dominates every candidate
weakly and every earlier candidate strictly. -/
theorem extractOneAux_spec (scorer : String → String → ℚ) (query : String) :
    ∀ (cs : List String) (best : String × ℚ × Nat) (i : Nat),
      (extractOneAux scorer query best i cs = best ∧
        ∀ j, j < cs.length → scorer query (cs.getD j "") ≤ best.2.1) ∨
      (∃ j, j < cs.length ∧
        extractOneAux scorer query best i cs =
          (cs.getD j "", scorer query (cs.getD j ""), i + j) ∧
        best.2.1 < scorer query (cs.getD j "") ∧
        (∀ k, k < cs.length →
          scorer query (cs.getD k "") ≤ scorer query (cs.getD j "")) ∧
        (∀ k, k < j →
          scorer query (cs.getD k "") < scorer query (cs.getD j ""))) := by
  intro cs
  induction cs with
  | nil =>
    intro best i
    left
    exact ⟨rfl, by intro j hj; simp at hj⟩
  | cons c cs ih =>
    intro best i
    rw [extractOneAux]
    by_cases hlt : best.2.1 < scorer query c
    · rw [if_pos hlt]
      rcases ih (c, scorer query c, i) (i + 1) with ⟨heq, hall⟩ | ⟨j, hj, heq, hgt, hall, hstrict⟩
      · right
        refine ⟨0, by simp, ?_, by simpa using hlt, ?_, by intro k hk; omega⟩
        · rw [heq]
          simp
        · intro k hk
          cases k with
          | zero => simp
          | succ k' =>
            have hk' : k' < cs.length := by simpa using hk
            simpa using hall k' hk'
      · right
        refine ⟨j + 1, by simpa using hj, ?_, ?_, ?_, ?_⟩
        · rw [heq]
          simp only [List.getD_cons_succ]
          congr 1
          · congr 1
            omega
        · calc best.2.1 < scorer query c := hlt
            _ < scorer query (cs.getD j "") := by simpa using hgt
        · intro k hk
          cases k with
          | zero =>
            simp only [List.getD_cons_zero, List.getD_cons_succ]
            exact le_of_lt (by simpa using hgt)
          | succ k' =>
            have hk' : k' < cs.length := by simpa using hk
            simpa using hall k' hk'
        · intro k hk
          cases k with
          | zero =>
            simp only [List.getD_cons_zero, List.getD_cons_succ]
            simpa using hgt
          | succ k' =>
            have hk' : k' < j := by omega
            simpa using hstrict k' hk'
    · rw [if_neg hlt]
      push_neg at hlt
      rcases ih best (i + 1) with ⟨heq, hall⟩ | ⟨j, hj, heq, hgt, hall, hstrict⟩
      · left
        refine ⟨heq, ?_⟩
        intro j hj
        cases j with
        | zero => simpa using hlt
        | succ j' =>
          have hj' : j' < cs.length := by simpa using hj
          simpa using hall j' hj'
      · right
        refine ⟨j + 1, by simpa using hj, ?_, by simpa using hgt, ?_, ?_⟩
        · rw [heq]
          simp only [List.getD_cons_succ]
          congr 1
          · congr 1
            omega
        · intro k hk
          cases k with
          | zero =>
            simp only [List.getD_cons_zero, List.getD_cons_succ]
            exact le_trans hlt (le_of_lt (by simpa using hgt))
          | succ k' =>
            have hk' : k' < cs.length := by simpa using hk
            simpa using hall k' hk'
        · intro k hk
          cases k with
          | zero =>
            simp only [List.getD_cons_zero, List.getD_cons_succ]
            exact lt_of_le_of_lt hlt (by simpa using hgt)
          | succ k' =>
            have hk' : k' < j := by omega
            simpa using hstrict k' hk'

/-- Claim C1, counterexample: aligning the non-empty line against the empty
reference, whose candidate set is empty, does not produce a run containing
a sentinel zero-score LineResult that continues; the run produces no
results at all, because the None returned by the selector crashes the
unprotected tuple unpacking. -/
theorem claim1_counterexample : align_ocr_lines ["אבג"] "" = none := by decide

/-- Claim C1 as amended: for every OCR line whose candidate set is empty
(for example against an empty reference), the match selection returns no
candidate and the whole run aborts: no sentinel LineResult is recorded and
no subsequent line is processed. -/
theorem claim1_empty_candidates_abort (line : String) (rest : List String)
    (ref : String)
    (h : candidatesFor (normalize_hebrew ref) (normalize_hebrew line) = []) :
    align_ocr_lines (line :: rest) ref = none := by
  have hn : processLine (normalize_hebrew ref) line = none := processLine_none _ _ h
  simp only [align_ocr_lines, List.foldl_cons, hn, Option.map_none', Option.bind_none,
    Option.bind_some]
  exact align_foldl_none _ rest

/-- Witness for the amended claim C1: the concrete line against the empty
reference has an empty candidate set and the run aborts. -/
theorem claim1_empty_candidates_abort_witness :
    candidatesFor (normalize_hebrew "") (normalize_hebrew "אבג") = [] ∧
    align_ocr_lines ["אבג", "אב"] "" = none :=
  ⟨by decide, claim1_empty_candidates_abort "אבג" ["אב"] "" (by decide)⟩

/-- Claim C2, code divergence: the confusion pairs are computed between the
raw line and the normalized match, not between two equally normalized
strings; the raw line containing the non-script letter B (removed by
keepChar, second conjunct) still contributes the confusion pair for B. -/
theorem claim2_raw_line_confusions :
    align_ocr_lines ["אB"] "א" =
      some ([⟨"אB", "א", 100, 0, "א"⟩], [(some 'B', none)]) ∧
    keepChar 'B' = false := by decide

/-- Claim C3, counterexample: with a reference containing a double space the
selected match (a single-space join of reference words) does not occur in
the normalized reference, so the recorded Start Index is -1, not the
non-negative offset of an occurrence. -/
theorem claim3_counterexample :
    align_ocr_lines ["אב גד"] "אב  גד" =
      some ([⟨"אב גד", "אב גד", 100, -1, "אב גד"⟩], []) ∧
    strFind (normalize_hebrew "אב  גד") "אב גד" = -1 := by decide

/-- Claim C3 as amended: every recorded reference offset equals the result
of the first-occurrence substring search of the matched text in the
normalized reference; when that result is non-negative it is the offset of
an occurrence and no smaller offset carries one, but the matched text need
not occur at all (the search then yields -1). -/
theorem claim3_offset_amended (lines : List String) (ref : String)
    (out : List LineResult × List ConfusionPair)
    (h : align_ocr_lines lines ref = some out) (r : LineResult) (hr : r ∈ out.1) :
    r.startIndex = strFind (normalize_hebrew ref) r.bestMatch ∧
    (0 ≤ r.startIndex →
      r.bestMatch.data.isPrefixOf
        ((normalize_hebrew ref).data.drop r.startIndex.toNat) = true ∧
      ∀ j, j < r.startIndex.toNat →
        r.bestMatch.data.isPrefixOf ((normalize_hebrew ref).data.drop j) = false) := by
  have h1 := align_results_startIndex lines ref out h r hr
  refine ⟨h1, ?_⟩
  intro hnn
  rw [h1] at hnn ⊢
  exact findSub_spec r.bestMatch.data (normalize_hebrew ref).data hnn

/-- Witness for the amended claim C3 on a concrete successful run. -/
theorem claim3_offset_amended_witness :
    (⟨"אב", "אב", 100, 0, "אב"⟩ : LineResult).startIndex =
      strFind (normalize_hebrew "אב") "אב" :=
  (claim3_offset_amended ["אב"] "אב" ([⟨"אב", "אב", 100, 0, "אב"⟩], [])
    (by decide) ⟨"אב", "אב", 100, 0, "אב"⟩ (by simp)).1

/-- Claim C7: the confusion extractor scans the edit script left to right
emitting one substitution pair for a delete immediately followed by an
insert, a deletion pair for a delete not followed by an insert, an
insertion pair for an insert, and nothing for kept positions; on the
concrete pair of strings differing in the last letter it emits exactly the
one substitution pair. -/
theorem claim7_confusion_rules :
    (∀ (a b : Char) (rest : List DiffLine),
      mergeDiff (DiffLine.del a :: DiffLine.ins b :: rest) =
        (some a, some b) :: mergeDiff rest) ∧
    (∀ a : Char, mergeDiff [DiffLine.del a] = [(some a, none)]) ∧
    (∀ (a c : Char) (rest : List DiffLine),
      mergeDiff (DiffLine.del a :: DiffLine.del c :: rest) =
        (some a, none) :: mergeDiff (DiffLine.del c :: rest)) ∧
    (∀ (a c : Char) (rest : List DiffLine),
      mergeDiff (DiffLine.del a :: DiffLine.keep c :: rest) =
        (some a, none) :: mergeDiff (DiffLine.keep c :: rest)) ∧
    (∀ (b : Char) (rest : List DiffLine),
      mergeDiff (DiffLine.ins b :: rest) = (none, some b) :: mergeDiff rest) ∧
    (∀ (c : Char) (rest : List DiffLine),
      mergeDiff (DiffLine.keep c :: rest) = mergeDiff rest) ∧
    diff_strings "אבג" "אבד" = [(some 'ג', some 'ד')] :=
  ⟨fun _ _ _ => rfl, fun _ => rfl, fun _ _ _ => rfl, fun _ _ _ => rfl,
    fun _ _ => rfl, fun _ _ => rfl, by decide⟩

/-- Claim C8, code divergence: a standard PAGE-XML TextLine carries its
Unicode element inside a TextEquiv; extraction finds the line there and the
alignment meets both replacement conditions (text differs, score above 50),
yet the document rewrite leaves the line unchanged, because it only
consults a Unicode element that is a direct child of the TextLine. -/
theorem claim8_update_misses_nested_unicode :
    extract_ocr_lines [⟨true, some (some "אcב"), none⟩] = ["אcב"] ∧
    align_ocr_lines ["אcב"] "אב" =
      some ([⟨"אcב", "אב", 100, 0, "אב"⟩], [(some 'c', none)]) ∧
    ("אcב" ≠ "אב" ∧ (50 : ℚ) < 100) ∧
    update_pagexml_with_aligned_text [⟨true, some (some "אcב"), none⟩]
      [⟨"אcב", "אב", 100, 0, "אב"⟩] = [⟨true, some (some "אcב"), none⟩] := by decide

/-- Claim C9: the alignment engine modelled as align_ocr_lines is a pure
function of the OCR lines and the reference text (the only nondeterminism
in the source, the uuid in output file names, lies outside the LineResult
sequence and confusion log the claim speaks about), so two runs on the same
input return the same result sequence and the same confusion log. -/
theorem claim9_deterministic (lines : List String) (ref : String)
    (r₁ r₂ : Option (List LineResult × List ConfusionPair))
    (h₁ : align_ocr_lines lines ref = r₁) (h₂ : align_ocr_lines lines ref = r₂) :
    r₁ = r₂ :=
  h₁.symm.trans h₂

/-- Witness for claim C9 on a concrete run. -/
theorem claim9_deterministic_witness :
    (some ([⟨"אב", "אב", 100, 0, "אב"⟩], []) :
      Option (List LineResult × List ConfusionPair)) =
      some ([⟨"אב", "אב", 100, 0, "אב"⟩], []) :=
  claim9_deterministic ["אב"] "אב" _ _ (by decide) (by decide)

/-- Claim C10: normalization is idempotent; filtering to the script class
and trimming leave an already normalized string unchanged. -/
theorem claim10_normalize_idempotent (s : String) :
    normalize_hebrew (normalize_hebrew s) = normalize_hebrew s := by
  have key : ∀ l : List Char,
      pyStripL ((pyStripL (l.filter keepChar)).filter keepChar) =
        pyStripL (l.filter keepChar) := by
    intro l
    have hsub := pyStripL_subset (l.filter keepChar)
    have hfix : (pyStripL (l.filter keepChar)).filter keepChar =
        pyStripL (l.filter keepChar) := by
      apply List.filter_eq_self.mpr
      intro c hc
      exact (List.mem_filter.mp (hsub c hc)).2
    rw [hfix, pyStripL_idem]
  exact congrArg String.mk (key s.data)

/-- Claim C4: for n reference words and positive window size w,
build_windows returns exactly max 0 (n - w + 1) windows, window i being
words i to i+w joined by single spaces in increasing order, and an empty
sequence (not a failure) when w exceeds n. -/
theorem claim4_build_windows (text : String) (w : Nat) (h : 0 < w) :
    ((build_windows text w).length : Int) =
      max 0 (((pySplit text).length : Int) - (w : Int) + 1) ∧
    (∀ i, i < (build_windows text w).length →
      (build_windows text w).getD i "" =
        String.intercalate " " (((pySplit text).drop i).take w)) ∧
    ((pySplit text).length < w → build_windows text w = []) := by
  refine ⟨?_, ?_, ?_⟩
  · simp only [build_windows, List.length_map, List.length_range]
    omega
  · intro i hi
    simp only [build_windows, List.length_map, List.length_range] at hi
    simp [build_windows, List.getD, hi]
  · intro hlt
    have h0 : (pySplit text).length + 1 - w = 0 := by omega
    simp [build_windows, h0]

/-- Witness for claim C4 at a concrete text and window size. -/
theorem claim4_build_windows_witness :
    ((build_windows "אב גד" 2).length : Int) =
      max 0 (((pySplit "אב גד").length : Int) - (2 : Int) + 1) :=
  (claim4_build_windows "אב גד" 2 (by decide)).1

/-- Claim C5: the candidate set of a line with base_size tokens consists of
the windows of the sizes base_size-1, base_size, base_size+1 filtered to
positive values, concatenated in increasing size order and deduplicated by
first occurrence; the deduplication keeps a subsequence of the
concatenation (preserving the relative order of survivors), removes all
duplicates, and drops no string entirely. -/
theorem claim5_candidate_set :
    (∀ refNorm normLine : String,
      candidatesFor refNorm normLine =
        dedupFirst
          (((([((pySplit normLine).length : Int) - 1,
              ((pySplit normLine).length : Int),
              ((pySplit normLine).length : Int) + 1]).filter
                (fun s => decide (0 < s))).map Int.toNat).flatMap
            (fun w => build_windows refNorm w))) ∧
    (∀ l : List String, List.Sublist (dedupFirst l) l) ∧
    (∀ l : List String, (dedupFirst l).Nodup) ∧
    (∀ (l : List String) (a : String), a ∈ dedupFirst l ↔ a ∈ l) := by
  refine ⟨?_, dedupFirst_sublist, dedupFirst_nodup, dedupFirst_mem⟩
  intro refNorm normLine
  rw [candidatesFor, pyDedup_eq_dedupFirst]
  rfl

/-- Claim C6: for a non-empty candidate sequence the selector returns a
candidate of the sequence together with its score and position, its score
weakly dominates every candidate and strictly dominates every earlier
candidate, so the earliest candidate wins ties. -/
theorem claim6_select_best (scorer : String → String → ℚ) (query : String)
    (choices : List String) (h : choices ≠ []) :
    ∃ best s i, extractOne scorer query choices = some (best, s, i) ∧
      i < choices.length ∧ choices.getD i "" = best ∧ s = scorer query best ∧
      (∀ j, j < choices.length → scorer query (choices.getD j "") ≤ s) ∧
      (∀ j, j < i → scorer query (choices.getD j "") < s) := by
  rcases choices with _ | ⟨c, cs⟩
  · exact absurd rfl h
  · rw [extractOne]
    rcases extractOneAux_spec scorer query cs (c, scorer query c, 0) 1 with
      ⟨heq, hall⟩ | ⟨j, hj, heq, hgt, hall, hstrict⟩
    · refine ⟨c, scorer query c, 0, by rw [heq], by simp, by simp, rfl, ?_, ?_⟩
      · intro j hj
        cases j with
        | zero => simp
        | succ j' =>
          have hj' : j' < cs.length := by simpa using hj
          simpa using hall j' hj'
      · intro j hj
        omega
    · refine ⟨cs.getD j "", scorer query (cs.getD j ""), 1 + j, by rw [heq],
        by simp; omega, ?_, rfl, ?_, ?_⟩
      · have h1j : 1 + j = j + 1 := by omega
        rw [h1j]
        simp
      · intro k hk
        cases k with
        | zero =>
          simp only [List.getD_cons_zero]
          exact le_of_lt (by simpa using hgt)
        | succ k' =>
          have hk' : k' < cs.length := by simpa using hk
          simpa using hall k' hk'
      · intro k hk
        cases k with
        | zero =>
          simp only [List.getD_cons_zero]
          simpa using hgt
        | succ k' =>
          have hk' : k' < j := by omega
          simpa using hstrict k' hk'

/-- Witness for claim C6 at a concrete query and candidate list. -/
theorem claim6_select_best_witness :
    extractOne fuzzScore "אב" ["אב"] = some ("אב", fuzzScore "אב" "אב", 0) := by
  obtain ⟨best, s, i, heq, hi, hbest, hs, hall, hstrict⟩ :=
    claim6_select_best fuzzScore "אב" ["אב"] (by decide)
  have hi0 : i = 0 := by simpa using hi
  subst hi0
  simp only [List.getD_cons_zero] at hbest
  subst hbest
  subst hs
  exact heq

end OcrDiffAlign
